import Mathlib

/-!
# Verification of the PDF_Summarizer text pipeline

Shallow embedding of the pure text-processing core of the repository
(files app.py and summarizer.py): text cleaning, sentence splitting,
greedy chunking, the per-chunk skip predicates of the two front-ends,
the final-summary assembly of both front-ends, and the BERTScore
pairing/averaging step.  Strings are modelled as lists of characters;
the external summarization model and the external per-pair scoring
metric are opaque function parameters.  Python whitespace (regex \s,
str.split, str.strip) is modelled by the six ASCII whitespace
characters; digits are the ASCII digits.
-/

set_option autoImplicit false

/-- ASCII whitespace, modelling the whitespace class used by the Python
regexes and by str.split / str.strip in clean_text and chunk_text. -/
def isWs (c : Char) : Bool :=
  c == ' ' || c == '\t' || c == '\n' || c == '\r' || c == '\x0b' || c == '\x0c'

/-- Sentence-final punctuation used by the chunker regex (?<=[.!?])\s+. -/
def isPunct (c : Char) : Bool :=
  c == '.' || c == '!' || c == '?'

/-- ASCII digit, modelling regex \d in the Page-number pattern. -/
def isDigit (c : Char) : Bool :=
  '0' ≤ c && c ≤ '9'

/-- Drop the leading whitespace run (left part of str.strip). -/
def dropWs : List Char → List Char
  | [] => []
  | c :: cs => if isWs c then dropWs cs else c :: cs

/-- Drop the trailing whitespace run (right part of str.strip). -/
def dropTrailWs (l : List Char) : List Char :=
  (dropWs l.reverse).reverse

/-- Model of Python str.strip(): remove leading and trailing whitespace. -/
def stripChars (l : List Char) : List Char :=
  dropTrailWs (dropWs l)

/-- Accumulator worker for the word list.  The accumulator holds the
current partial word reversed. -/
def wordsAux (cur : List Char) : List Char → List (List Char)
  | [] => if cur.isEmpty then [] else [cur.reverse]
  | c :: cs =>
      if isWs c then
        if cur.isEmpty then wordsAux [] cs else cur.reverse :: wordsAux [] cs
      else wordsAux (c :: cur) cs

/-- Model of Python str.split() with no argument, as used for word
counting: split on whitespace runs, ignoring leading and trailing
whitespace. -/
def words (l : List Char) : List (List Char) :=
  wordsAux [] l

/-- Worker for whitespace collapsing.  The flag records whether the
previous character was whitespace (i.e. we are inside a run whose
single replacement space has already been emitted). -/
def collapseAux : Bool → List Char → List Char
  | _, [] => []
  | prevWs, c :: cs =>
      if isWs c then
        if prevWs then collapseAux true cs else ' ' :: collapseAux true cs
      else c :: collapseAux false cs

/-- Model of re.sub(r&#92;s+, a single space, text): replace every maximal
whitespace run by one space. -/
def collapseWs (l : List Char) : List Char :=
  collapseAux false l

/-- Drop the leading run of ASCII digits (the greedy \d+ of the
Page-number pattern). -/
def dropDigits : List Char → List Char
  | [] => []
  | c :: cs => if isDigit c then dropDigits cs else c :: cs

/-- One-position match test for the case-insensitive pattern
Page\s\d (the required first six characters of a Page-token match). -/
def isPageTok (p1 p2 p3 p4 w d : Char) : Bool :=
  p1.toLower == 'p' && p2.toLower == 'a' && p3.toLower == 'g' && p4.toLower == 'e'
    && isWs w && isDigit d

/-- Fuel-indexed worker for the Page-token removal: scan left to right;
at a match of Page\s\d+ drop the whole match (greedy digits) and
continue after it, exactly as re.sub with the empty replacement does.
The fuel is an upper bound on the number of scan steps; every step
consumes at least one character, so fuel = length suffices. -/
def removePageFuel : Nat → List Char → List Char
  | 0, l => l
  | _ + 1, [] => []
  | fuel + 1, c :: cs =>
      match c :: cs with
      | p1 :: p2 :: p3 :: p4 :: w :: d :: rest =>
          if isPageTok p1 p2 p3 p4 w d then removePageFuel fuel (dropDigits rest)
          else c :: removePageFuel fuel cs
      | _ => c :: removePageFuel fuel cs

/-- Model of re.sub(r Page\s\d+ , empty, text, flags=IGNORECASE). -/
def removePage (l : List Char) : List Char :=
  removePageFuel l.length l

/-- Embedding of clean_text (identical in app.py lines 28-31 and
summarizer.py lines 28-35): collapse whitespace runs to single spaces,
strip both ends, then remove case-insensitive Page-number tokens.
Note the order: the strip happens before the token removal. -/
def clean_text (l : List Char) : List Char :=
  removePage (stripChars (collapseWs l))

/-- Worker for the sentence splitter re.split((?<=[.!?])\s+, text).
cur is the current piece reversed; inSep records that we are inside a
separator whitespace run (whose first character was preceded by
sentence punctuation). -/
def splitAux (inSep : Bool) (cur : List Char) : List Char → List (List Char)
  | [] => [cur.reverse]
  | c :: cs =>
      if isWs c then
        if inSep then splitAux true cur cs
        else
          match cur with
          | p :: _ => if isPunct p then cur.reverse :: splitAux true [] cs
                      else splitAux false (c :: cur) cs
          | [] => splitAux false (c :: cur) cs
      else splitAux false (c :: cur) cs

/-- Embedding of re.split((?<=[.!?])\s+, text): split at whitespace runs
whose first character is preceded by . or ! or ?, removing the run. -/
def splitSentences (l : List Char) : List (List Char) :=
  splitAux false [] l

/-- Worker for the greedy chunker loop of chunk_text (app.py lines
36-49, summarizer.py lines 40-55).  cur is current_chunk, w is the
running word counter; the condition and both branches mirror the Python
loop body literally (string truthiness of current_chunk is
non-emptiness). -/
def chunkAux (m : Nat) (cur : List Char) (w : Nat) : List (List Char) → List (List Char)
  | [] => if cur.isEmpty then [] else [stripChars cur]
  | s :: rest =>
      if w + (words s).length > m ∧ cur.isEmpty = false then
        stripChars cur :: chunkAux m s ((words s).length) rest
      else
        chunkAux m (cur ++ ' ' :: s) (w + (words s).length) rest

/-- Embedding of chunk_text(text, max_words): split into sentences, then
greedily pack sentences into chunks of at most max_words words (soft
bound: an oversized sentence entering an empty chunk is kept whole). -/
def chunk_text (l : List Char) (m : Nat) : List (List Char) :=
  chunkAux m [] 0 (splitSentences l)

/-- Join a list of strings with a single space between consecutive
elements (used to state content preservation of the chunker). -/
def joinSpace : List (List Char) → List Char
  | [] => []
  | [c] => c
  | c :: rest => c ++ ' ' :: joinSpace rest

/-- Join with a blank line, modelling the Python "\n\n".join(summaries)
of both front-ends. -/
def joinNN : List (List Char) → List Char
  | [] => []
  | [c] => c
  | c :: rest => c ++ '\n' :: '\n' :: joinNN rest

/-- Skip predicate of the CLI front-end, summarizer.py line 110:
a chunk is kept (summarized) unless it is empty or has fewer than 40
words. -/
def cli_keep (c : List Char) : Bool :=
  !c.isEmpty && decide (40 ≤ (words c).length)

/-- Skip predicate of the interactive front-end, app.py line 106:
a chunk is kept (summarized) only when it has more than 40 words. -/
def app_keep (c : List Char) : Bool :=
  decide (40 < (words c).length)

/-- Summaries produced by the CLI loop (summarizer.py lines 109-114)
for an opaque summarization model f: skipped chunks are omitted, kept
chunks are summarized in input order. -/
def summarize_chunks_cli (f : List Char → List Char) (chunks : List (List Char)) :
    List (List Char) :=
  (chunks.filter cli_keep).map f

/-- Summaries produced by the interactive loop (app.py lines 104-108)
for an opaque summarization model f. -/
def summarize_chunks_app (f : List Char → List Char) (chunks : List (List Char)) :
    List (List Char) :=
  (chunks.filter app_keep).map f

/-- Interactive front-end pipeline from extracted raw text onward
(app.py lines 89-119): none models the insufficient-text warning path
(no outputs written); some fs models the path that writes
summary_output.txt / summary_output.pdf containing final summary fs. -/
def app_run (f : List Char → List Char) (raw : List Char) : Option (List Char) :=
  if (clean_text raw).isEmpty = true ∨ (words (clean_text raw)).length < 40 then none
  else some (joinNN (summarize_chunks_app f (chunk_text (clean_text raw) 400)))

/-- CLI front-end pipeline from extracted raw text onward
(summarizer.py main, lines 87-126): it returns early (writing nothing)
only when the raw extracted text is empty; otherwise it always writes
the output files with the joined final summary. -/
def cli_run (f : List Char → List Char) (raw : List Char) : Option (List Char) :=
  if raw.isEmpty = true then none
  else some (joinNN (summarize_chunks_cli f (chunk_text (clean_text raw) 400)))

/-- The truncated reference list of the BERTScore step,
valid_chunks = chunks[:len(summaries)] (summarizer.py line 134, app.py
line 129). -/
def valid_chunks (chunks summaries : List (List Char)) : List (List Char) :=
  chunks.take summaries.length

/-- Candidate/reference pairs actually scored: score(summaries,
valid_chunks) pairs the two lists positionally. -/
def eval_pairs (chunks summaries : List (List Char)) :
    List (List Char × List Char) :=
  summaries.zip (valid_chunks chunks summaries)

/-- Modelled from the spec: the external BERTScore metric (bert_score.
score, an external collaborator, not part of this repository) returns
one precision/recall/F1 triple per candidate/reference pair, and the
code reports P.mean(), R.mean(), F1.mean(), the arithmetic means of the
per-pair values (summarizer.py lines 136-141, app.py lines 130-133).
The per-pair metric sc is an opaque parameter. -/
def reportedScores (sc : List Char → List Char → ℚ × ℚ × ℚ)
    (chunks summaries : List (List Char)) : ℚ × ℚ × ℚ :=
  (((eval_pairs chunks summaries).map fun pr => (sc pr.1 pr.2).1).sum
      / ((eval_pairs chunks summaries).length : ℚ),
   ((((eval_pairs chunks summaries).map fun pr => (sc pr.1 pr.2).2.1).sum
      / ((eval_pairs chunks summaries).length : ℚ)),
    (((eval_pairs chunks summaries).map fun pr => (sc pr.1 pr.2).2.2).sum
      / ((eval_pairs chunks summaries).length : ℚ))))

/-! ## Lemmas about words (the str.split model) -/

theorem wordsAux_cons_ws (c : Char) (b : List Char) (hc : isWs c = true) (cur : List Char) :
    wordsAux cur (c :: b) =
      (if cur.isEmpty then ([] : List (List Char)) else [cur.reverse]) ++ wordsAux [] b := by
  by_cases h : cur.isEmpty <;> simp [wordsAux, hc, h]

theorem words_cons_ws (c : Char) (b : List Char) (hc : isWs c = true) :
    words (c :: b) = words b := by
  simp [words, wordsAux_cons_ws c b hc]

theorem wordsAux_append_ws (a : List Char) (c : Char) (b : List Char) (hc : isWs c = true) :
    ∀ cur, wordsAux cur (a ++ c :: b) = wordsAux cur a ++ wordsAux [] b := by
  induction a with
  | nil =>
      intro cur
      rw [List.nil_append, wordsAux_cons_ws c b hc cur]
      by_cases h : cur.isEmpty <;> simp [wordsAux, h]
  | cons d a ih =>
      intro cur
      by_cases hd : isWs d
      · by_cases h : cur.isEmpty <;>
          simp [wordsAux, hd, h, ih]
      · simp [wordsAux, hd, ih]

theorem words_append_ws (a : List Char) (c : Char) (b : List Char) (hc : isWs c = true) :
    words (a ++ c :: b) = words a ++ words b :=
  wordsAux_append_ws a c b hc []

theorem wordsAux_allws (p : List Char) (hp : ∀ c ∈ p, isWs c = true) :
    ∀ cur, wordsAux cur p = wordsAux cur [] := by
  induction p with
  | nil => intro cur; rfl
  | cons c p ih =>
      intro cur
      have hc : isWs c = true := hp c (List.mem_cons_self c p)
      have hp' : ∀ x ∈ p, isWs x = true := fun x hx => hp x (List.mem_cons_of_mem c hx)
      rw [wordsAux_cons_ws c p hc cur, ih hp' []]
      by_cases h : cur.isEmpty <;> simp [wordsAux, h]

theorem wordsAux_append_allws (a p : List Char) (hp : ∀ c ∈ p, isWs c = true) :
    ∀ cur, wordsAux cur (a ++ p) = wordsAux cur a := by
  induction a with
  | nil => intro cur; rw [List.nil_append, wordsAux_allws p hp cur]
  | cons d a ih =>
      intro cur
      by_cases hd : isWs d
      · by_cases h : cur.isEmpty <;> simp [wordsAux, hd, h, ih]
      · simp [wordsAux, hd, ih]

theorem words_dropWs (l : List Char) : words (dropWs l) = words l := by
  induction l with
  | nil => rfl
  | cons c cs ih =>
      by_cases hc : isWs c
      · rw [dropWs, if_pos hc, ih, words_cons_ws c cs hc]
      · rw [dropWs, if_neg hc]

theorem dropWs_decomp (l : List Char) :
    ∃ p, l = p ++ dropWs l ∧ ∀ c ∈ p, isWs c = true := by
  induction l with
  | nil => exact ⟨[], rfl, by simp⟩
  | cons c cs ih =>
      by_cases hc : isWs c
      · obtain ⟨p, hp1, hp2⟩ := ih
        refine ⟨c :: p, ?_, ?_⟩
        · rw [dropWs, if_pos hc, List.cons_append, ← hp1]
        · intro x hx
          rcases List.mem_cons.mp hx with h | h
          · rw [h]; exact hc
          · exact hp2 x h
      · exact ⟨[], by rw [dropWs, if_neg hc, List.nil_append], by simp⟩

theorem dropTrailWs_decomp (l : List Char) :
    ∃ p, l = dropTrailWs l ++ p ∧ ∀ c ∈ p, isWs c = true := by
  obtain ⟨p, hp1, hp2⟩ := dropWs_decomp l.reverse
  refine ⟨p.reverse, ?_, ?_⟩
  · have h := congrArg List.reverse hp1
    rw [List.reverse_reverse, List.reverse_append] at h
    rw [dropTrailWs]
    exact h
  · intro c hc
    exact hp2 c (List.mem_reverse.mp hc)

theorem words_dropTrailWs (l : List Char) : words (dropTrailWs l) = words l := by
  obtain ⟨p, hp1, hp2⟩ := dropTrailWs_decomp l
  conv_rhs => rw [hp1]
  rw [words, words, wordsAux_append_allws _ p hp2]

theorem words_strip (l : List Char) : words (stripChars l) = words l := by
  rw [stripChars, words_dropTrailWs, words_dropWs]
/-! ## Lemmas about the sentence splitter and content preservation -/

theorem isWs_space : isWs ' ' = true := by decide

theorem splitAux_words_flat (cs : List Char) :
    ∀ (inSep : Bool) (cur : List Char), (inSep = true → cur = []) →
      ((splitAux inSep cur cs).map words).flatten = words (cur.reverse ++ cs) := by
  induction cs with
  | nil =>
      intro inSep cur _
      simp [splitAux]
  | cons c cs ih =>
      intro inSep cur hsep
      by_cases hc : isWs c
      · cases inSep with
        | true =>
            have hcur : cur = [] := hsep rfl
            subst hcur
            rw [show splitAux true [] (c :: cs) = splitAux true [] cs by
              simp [splitAux, hc]]
            rw [ih true [] (fun _ => rfl)]
            simp [words_cons_ws c cs hc]
        | false =>
            cases cur with
            | nil =>
                rw [show splitAux false [] (c :: cs) = splitAux false [c] cs by
                  simp [splitAux, hc]]
                rw [ih false [c] (by simp)]
                simp [words_cons_ws c cs hc]
            | cons p rest =>
                by_cases hp : isPunct p
                · rw [show splitAux false (p :: rest) (c :: cs)
                        = (p :: rest).reverse :: splitAux true [] cs by
                    simp [splitAux, hc, hp]]
                  rw [List.map_cons, List.flatten_cons, ih true [] (fun _ => rfl)]
                  rw [show ([] : List Char).reverse = [] from rfl, List.nil_append,
                    words_append_ws (p :: rest).reverse c cs hc]
                · rw [show splitAux false (p :: rest) (c :: cs)
                        = splitAux false (c :: p :: rest) cs by
                    simp [splitAux, hc, hp]]
                  rw [ih false (c :: p :: rest) (by simp)]
                  simp
      · rw [show splitAux inSep cur (c :: cs) = splitAux false (c :: cur) cs by
          simp [splitAux, hc]]
        rw [ih false (c :: cur) (by simp)]
        simp

theorem splitSentences_words_flat (l : List Char) :
    ((splitSentences l).map words).flatten = words l := by
  rw [splitSentences, splitAux_words_flat l false [] (by simp)]
  rfl

theorem words_joinSpace_cons (a : List Char) (L : List (List Char)) :
    words (joinSpace (a :: L)) = words a ++ words (joinSpace L) := by
  cases L with
  | nil => simp [joinSpace, words, wordsAux]
  | cons b L =>
      rw [show joinSpace (a :: b :: L) = a ++ ' ' :: joinSpace (b :: L) from rfl]
      rw [words_append_ws a ' ' (joinSpace (b :: L)) isWs_space]

theorem chunkAux_words_flat (l : List (List Char)) :
    ∀ (m : Nat) (cur : List Char) (w : Nat),
      words (joinSpace (chunkAux m cur w l)) = words cur ++ (l.map words).flatten := by
  induction l with
  | nil =>
      intro m cur w
      by_cases h : cur.isEmpty
      · have hc : cur = [] := List.isEmpty_iff.mp h
        subst hc
        simp [chunkAux, joinSpace, words, wordsAux]
      · simp only [chunkAux]
        rw [if_neg h]
        simp [joinSpace, words_strip]
  | cons s rest ih =>
      intro m cur w
      by_cases h : w + (words s).length > m ∧ cur.isEmpty = false
      · simp only [chunkAux]
        rw [if_pos h, words_joinSpace_cons, words_strip, ih]
        simp
      · simp only [chunkAux]
        rw [if_neg h, ih, words_append_ws cur ' ' s isWs_space]
        simp

/-! ## Lemmas for the chunk word bound (soft budget) -/

theorem words_append_space_len (a b : List Char) :
    (words (a ++ ' ' :: b)).length = (words a).length + (words b).length := by
  rw [words_append_ws a ' ' b isWs_space, List.length_append]

theorem stripChars_cons_space (s : List Char) :
    stripChars (' ' :: s) = stripChars s := by
  simp [stripChars, dropWs, isWs_space]

theorem appendCons_isEmpty_false (a : List Char) (c : Char) (s : List Char) :
    (a ++ c :: s).isEmpty = false := by
  cases a <;> rfl

theorem chunkAux_bound (l : List (List Char)) :
    ∀ (S : List (List Char)) (m : Nat) (cur : List Char) (w : Nat),
      (∀ s ∈ l, s ∈ S) →
      w = (words cur).length →
      (m < w → ∃ s ∈ S, stripChars cur = stripChars s ∧ (words s).length = w) →
      ∀ c ∈ chunkAux m cur w l,
        (words c).length ≤ m ∨ ∃ s ∈ S, c = stripChars s ∧ m < (words s).length := by
  induction l with
  | nil =>
      intro S m cur w _ hw hover c hc
      by_cases he : cur.isEmpty
      · simp only [chunkAux, if_pos he] at hc
        exact absurd hc (List.not_mem_nil c)
      · simp only [chunkAux, if_neg he] at hc
        rcases List.mem_singleton.mp hc with rfl
        by_cases hm : (words (stripChars cur)).length ≤ m
        · exact Or.inl hm
        · right
          rw [words_strip, ← hw] at hm
          obtain ⟨s, hs, hstrip, hlen⟩ := hover (Nat.lt_of_not_le hm)
          exact ⟨s, hs, hstrip, by rw [hlen]; exact Nat.lt_of_not_le hm⟩
  | cons s0 rest ih =>
      intro S m cur w hmem hw hover c hc
      by_cases h : w + (words s0).length > m ∧ cur.isEmpty = false
      · simp only [chunkAux, if_pos h] at hc
        rcases List.mem_cons.mp hc with rfl | hc
        · by_cases hm : (words (stripChars cur)).length ≤ m
          · exact Or.inl hm
          · right
            rw [words_strip, ← hw] at hm
            obtain ⟨s, hs, hstrip, hlen⟩ := hover (Nat.lt_of_not_le hm)
            exact ⟨s, hs, hstrip, by rw [hlen]; exact Nat.lt_of_not_le hm⟩
        · refine ih S m s0 ((words s0).length)
            (fun x hx => hmem x (List.mem_cons_of_mem s0 hx)) rfl
            (fun hm => ⟨s0, hmem s0 (List.mem_cons_self s0 rest), rfl, rfl⟩) c hc
      · simp only [chunkAux, if_neg h] at hc
        refine ih S m (cur ++ ' ' :: s0) (w + (words s0).length)
          (fun x hx => hmem x (List.mem_cons_of_mem s0 hx))
          (by rw [words_append_space_len, hw]) ?_ c hc
        intro hm
        have hcur : cur.isEmpty = true := by
          by_cases hce : cur.isEmpty
          · exact hce
          · exact absurd ⟨hm, Bool.eq_false_iff.mpr hce⟩ h
        have hcnil : cur = [] := List.isEmpty_iff.mp hcur
        subst hcnil
        have hw0 : w = 0 := by simpa [words, wordsAux] using hw
        subst hw0
        refine ⟨s0, hmem s0 (List.mem_cons_self s0 rest), ?_, by simp⟩
        rw [List.nil_append, stripChars_cons_space]

/-! ## Lemmas for monotonicity of the chunk count in the budget -/

theorem chunkAux_len_mono_aux (l : List (List Char)) :
    (∀ (m1 m2 : Nat) (cur1 cur2 : List Char) (w1 w2 : Nat), m2 ≤ m1 → w1 ≤ w2 →
      (cur1.isEmpty = false → cur2.isEmpty = false) →
      (chunkAux m1 cur1 w1 l).length ≤ (chunkAux m2 cur2 w2 l).length)
    ∧ (∀ (m1 m2 : Nat) (cur1 cur2 : List Char) (w1 w2 : Nat), m2 ≤ m1 →
      (chunkAux m1 cur1 w1 l).length ≤ (chunkAux m2 cur2 w2 l).length + 1) := by
  induction l with
  | nil =>
      constructor
      · intro m1 m2 cur1 cur2 w1 w2 _ _ himp
        by_cases h1 : cur1.isEmpty
        · simp [chunkAux, h1]
        · have h2 : cur2.isEmpty = false := himp (Bool.eq_false_iff.mpr h1)
          simp [chunkAux, h1, h2]
      · intro m1 m2 cur1 cur2 w1 w2 _
        by_cases h1 : cur1.isEmpty <;> by_cases h2 : cur2.isEmpty <;>
          simp [chunkAux, h1, h2]
  | cons s rest ih =>
      obtain ⟨ih1, ih2⟩ := ih
      constructor
      · intro m1 m2 cur1 cur2 w1 w2 hm hw himp
        by_cases h1 : w1 + (words s).length > m1 ∧ cur1.isEmpty = false <;>
          by_cases h2 : w2 + (words s).length > m2 ∧ cur2.isEmpty = false
        · simp only [chunkAux, if_pos h1, if_pos h2, List.length_cons]
          exact Nat.succ_le_succ (ih1 m1 m2 s s _ _ hm (Nat.le_refl _) (fun h => h))
        · exfalso
          have hc2 : cur2.isEmpty = false := himp h1.2
          have hle : w2 + (words s).length ≤ m2 := by
            by_cases hgt : w2 + (words s).length > m2
            · exact absurd ⟨hgt, hc2⟩ h2
            · exact Nat.le_of_not_lt hgt
          exact absurd h1.1 (Nat.not_lt.mpr (Nat.le_trans
            (Nat.add_le_add_right hw _) (Nat.le_trans hle hm)))
        · simp only [chunkAux, if_neg h1, if_pos h2, List.length_cons]
          exact ih2 m1 m2 _ s _ _ hm
        · simp only [chunkAux, if_neg h1, if_neg h2]
          exact ih1 m1 m2 _ _ _ _ hm (Nat.add_le_add_right hw _)
            (fun _ => appendCons_isEmpty_false cur2 ' ' s)
      · intro m1 m2 cur1 cur2 w1 w2 hm
        by_cases h1 : w1 + (words s).length > m1 ∧ cur1.isEmpty = false <;>
          by_cases h2 : w2 + (words s).length > m2 ∧ cur2.isEmpty = false
        · simp only [chunkAux, if_pos h1, if_pos h2, List.length_cons]
          exact Nat.succ_le_succ (ih2 m1 m2 s s _ _ hm)
        · simp only [chunkAux, if_pos h1, if_neg h2, List.length_cons]
          exact Nat.succ_le_succ (ih1 m1 m2 s _ _ _ hm (Nat.le_add_left _ _)
            (fun _ => appendCons_isEmpty_false cur2 ' ' s))
        · simp only [chunkAux, if_neg h1, if_pos h2, List.length_cons]
          exact Nat.le_trans (ih2 m1 m2 _ s _ _ hm) (Nat.succ_le_succ (Nat.le_succ _))
        · simp only [chunkAux, if_neg h1, if_neg h2]
          exact ih2 m1 m2 _ _ _ _ hm

/-! ## Lemmas for non-emptiness of the chunk list -/

theorem splitAux_ne_nil (cs : List Char) :
    ∀ (inSep : Bool) (cur : List Char), splitAux inSep cur cs ≠ [] := by
  induction cs with
  | nil => intro inSep cur; simp [splitAux]
  | cons c cs ih =>
      intro inSep cur
      by_cases hc : isWs c
      · cases inSep with
        | true =>
            rw [show splitAux true cur (c :: cs) = splitAux true cur cs by
              simp [splitAux, hc]]
            exact ih true cur
        | false =>
            cases cur with
            | nil =>
                rw [show splitAux false [] (c :: cs) = splitAux false [c] cs by
                  simp [splitAux, hc]]
                exact ih false [c]
            | cons p rest =>
                by_cases hp : isPunct p
                · rw [show splitAux false (p :: rest) (c :: cs)
                        = (p :: rest).reverse :: splitAux true [] cs by
                    simp [splitAux, hc, hp]]
                  exact List.cons_ne_nil _ _
                · rw [show splitAux false (p :: rest) (c :: cs)
                        = splitAux false (c :: p :: rest) cs by
                    simp [splitAux, hc, hp]]
                  exact ih false (c :: p :: rest)
      · rw [show splitAux inSep cur (c :: cs) = splitAux false (c :: cur) cs by
          simp [splitAux, hc]]
        exact ih false (c :: cur)

theorem chunkAux_ne_nil (l : List (List Char)) :
    ∀ (m : Nat) (cur : List Char) (w : Nat), cur.isEmpty = false →
      chunkAux m cur w l ≠ [] := by
  induction l with
  | nil =>
      intro m cur w hcur
      simp [chunkAux, hcur]
  | cons s rest ih =>
      intro m cur w hcur
      by_cases h : w + (words s).length > m ∧ cur.isEmpty = false
      · simp only [chunkAux, if_pos h]
        exact List.cons_ne_nil _ _
      · simp only [chunkAux, if_neg h]
        exact ih m _ _ (appendCons_isEmpty_false cur ' ' s)

theorem chunk_text_ne_nil (t : List Char) (m : Nat) : chunk_text t m ≠ [] := by
  rw [chunk_text]
  cases hs : splitSentences t with
  | nil => exact absurd hs (splitAux_ne_nil t false [])
  | cons s rest =>
      simp only [chunkAux]
      rw [if_neg (by simp)]
      exact chunkAux_ne_nil rest m _ _ (appendCons_isEmpty_false [] ' ' s)

/-! ## Whitespace normal forms: lemmas for the cleaning stage -/

/-- First character (if any) is not whitespace. -/
def headNonWs : List Char → Bool
  | [] => true
  | c :: _ => !(isWs c)

/-- No two adjacent whitespace characters. -/
def noRun : List Char → Bool
  | c1 :: c2 :: cs => (!(isWs c1 && isWs c2)) && noRun (c2 :: cs)
  | _ => true

/-- Every whitespace character is a plain space. -/
def WsP (l : List Char) : Prop := ∀ c ∈ l, isWs c = true → c = ' '

theorem noRun_cons (c : Char) (l : List Char) :
    noRun (c :: l) = (((!isWs c) || headNonWs l) && noRun l) := by
  cases l with
  | nil => simp [noRun, headNonWs]
  | cons d l => simp [noRun, headNonWs, Bool.not_and]

theorem headNonWs_collapseAux_true (l : List Char) :
    headNonWs (collapseAux true l) = true := by
  induction l with
  | nil => rfl
  | cons c cs ih =>
      by_cases hc : isWs c
      · simpa [collapseAux, hc] using ih
      · simp [collapseAux, hc, headNonWs]

theorem wsP_collapseAux (l : List Char) : ∀ b, WsP (collapseAux b l) := by
  induction l with
  | nil => intro b c hc; simp [collapseAux] at hc
  | cons c cs ih =>
      intro b x hx hwx
      by_cases hc : isWs c
      · cases b with
        | true =>
            rw [show collapseAux true (c :: cs) = collapseAux true cs by
              simp [collapseAux, hc]] at hx
            exact ih true x hx hwx
        | false =>
            rw [show collapseAux false (c :: cs) = ' ' :: collapseAux true cs by
              simp [collapseAux, hc]] at hx
            rcases List.mem_cons.mp hx with rfl | hx
            · rfl
            · exact ih true x hx hwx
      · rw [show collapseAux b (c :: cs) = c :: collapseAux false cs by
          simp [collapseAux, hc]] at hx
        rcases List.mem_cons.mp hx with rfl | hx
        · exact absurd hwx (by simpa using hc)
        · exact ih false x hx hwx

theorem noRun_collapseAux (l : List Char) : ∀ b, noRun (collapseAux b l) = true := by
  induction l with
  | nil => intro b; rfl
  | cons c cs ih =>
      intro b
      by_cases hc : isWs c
      · cases b with
        | true =>
            rw [show collapseAux true (c :: cs) = collapseAux true cs by
              simp [collapseAux, hc]]
            exact ih true
        | false =>
            rw [show collapseAux false (c :: cs) = ' ' :: collapseAux true cs by
              simp [collapseAux, hc]]
            rw [noRun_cons]
            simp [headNonWs_collapseAux_true, ih true]
      · rw [show collapseAux b (c :: cs) = c :: collapseAux false cs by
          simp [collapseAux, hc]]
        rw [noRun_cons]
        simp [hc, ih false]

theorem collapseAux_fix (l : List Char) :
    (WsP l → noRun l = true → collapseAux false l = l)
    ∧ (WsP l → noRun l = true → headNonWs l = true → collapseAux true l = l) := by
  induction l with
  | nil => exact ⟨fun _ _ => rfl, fun _ _ _ => rfl⟩
  | cons c cs ih =>
      have hWsTail : WsP (c :: cs) → WsP cs :=
        fun h x hx => h x (List.mem_cons_of_mem c hx)
      constructor
      · intro hws hnr
        by_cases hc : isWs c
        · have hsp : c = ' ' := hws c (List.mem_cons_self c cs) hc
          rw [show collapseAux false (c :: cs) = ' ' :: collapseAux true cs by
            simp [collapseAux, hc]]
          rw [noRun_cons] at hnr
          have h1 := (Bool.and_eq_true _ _).mp hnr
          have hhead : headNonWs cs = true := by
            rcases (Bool.or_eq_true _ _).mp h1.1 with h | h
            · exact absurd hc (by simpa using h)
            · exact h
          rw [(ih.2) (hWsTail hws) h1.2 hhead, hsp]
        · rw [show collapseAux false (c :: cs) = c :: collapseAux false cs by
            simp [collapseAux, hc]]
          rw [noRun_cons] at hnr
          rw [(ih.1) (hWsTail hws) ((Bool.and_eq_true _ _).mp hnr).2]
      · intro hws hnr hhead
        have hc : isWs c = false := by
          simpa [headNonWs] using hhead
        rw [show collapseAux true (c :: cs) = c :: collapseAux false cs by
          simp [collapseAux, hc]]
        rw [noRun_cons] at hnr
        rw [(ih.1) (hWsTail hws) ((Bool.and_eq_true _ _).mp hnr).2]

theorem mem_dropWs (l : List Char) (c : Char) (h : c ∈ dropWs l) : c ∈ l := by
  induction l with
  | nil => simp [dropWs] at h
  | cons d cs ih =>
      by_cases hd : isWs d
      · rw [dropWs, if_pos hd] at h
        exact List.mem_cons_of_mem d (ih h)
      · rwa [dropWs, if_neg hd] at h

theorem mem_dropTrailWs (l : List Char) (c : Char) (h : c ∈ dropTrailWs l) : c ∈ l := by
  rw [dropTrailWs, List.mem_reverse] at h
  exact List.mem_reverse.mp (mem_dropWs l.reverse c h)

theorem mem_stripChars (l : List Char) (c : Char) (h : c ∈ stripChars l) : c ∈ l :=
  mem_dropWs l c (mem_dropTrailWs (dropWs l) c h)

theorem noRun_tail (c : Char) (l : List Char) (h : noRun (c :: l) = true) :
    noRun l = true := by
  rw [noRun_cons] at h
  exact ((Bool.and_eq_true _ _).mp h).2

theorem noRun_dropWs (l : List Char) (h : noRun l = true) : noRun (dropWs l) = true := by
  induction l with
  | nil => simpa [dropWs] using h
  | cons d cs ih =>
      by_cases hd : isWs d
      · rw [dropWs, if_pos hd]
        exact ih (noRun_tail d cs h)
      · rwa [dropWs, if_neg hd]

theorem noRun_append_left (a : List Char) :
    ∀ b, noRun (a ++ b) = true → noRun a = true := by
  induction a with
  | nil => intro b _; rfl
  | cons c a ih =>
      intro b h
      rw [List.cons_append, noRun_cons] at h
      obtain ⟨h1, h2⟩ := (Bool.and_eq_true _ _).mp h
      rw [noRun_cons]
      refine (Bool.and_eq_true _ _).mpr ⟨?_, ih b h2⟩
      rcases (Bool.or_eq_true _ _).mp h1 with h | h
      · simp [h]
      · cases a with
        | nil => simp [headNonWs]
        | cons d a2 => simp_all [headNonWs]

theorem noRun_dropTrailWs (l : List Char) (h : noRun l = true) :
    noRun (dropTrailWs l) = true := by
  obtain ⟨p, hp1, _⟩ := dropTrailWs_decomp l
  rw [hp1] at h
  exact noRun_append_left _ p h

theorem headNonWs_dropWs (l : List Char) : headNonWs (dropWs l) = true := by
  induction l with
  | nil => rfl
  | cons d cs ih =>
      by_cases hd : isWs d
      · rw [dropWs, if_pos hd]; exact ih
      · rw [dropWs, if_neg hd]; simpa [headNonWs] using hd

theorem dropWs_of_headNonWs (l : List Char) (h : headNonWs l = true) : dropWs l = l := by
  cases l with
  | nil => rfl
  | cons c cs =>
      rw [dropWs, if_neg]
      simpa [headNonWs] using h

theorem headNonWs_dropTrailWs (l : List Char) (h : headNonWs l = true) :
    headNonWs (dropTrailWs l) = true := by
  obtain ⟨p, hp1, _⟩ := dropTrailWs_decomp l
  cases hd : dropTrailWs l with
  | nil => rfl
  | cons d ds =>
      rw [hd] at hp1
      rw [hp1] at h
      simpa [headNonWs] using h

theorem dropWs_idem (l : List Char) : dropWs (dropWs l) = dropWs l :=
  dropWs_of_headNonWs (dropWs l) (headNonWs_dropWs l)

theorem dropTrailWs_idem (l : List Char) : dropTrailWs (dropTrailWs l) = dropTrailWs l := by
  rw [dropTrailWs, dropTrailWs, List.reverse_reverse, dropWs_idem]

theorem stripChars_of_stripped (l : List Char) :
    stripChars (stripChars l) = stripChars l := by
  rw [stripChars, stripChars]
  rw [dropWs_of_headNonWs (dropTrailWs (dropWs l))
    (headNonWs_dropTrailWs (dropWs l) (headNonWs_dropWs l))]
  rw [dropTrailWs_idem]

theorem collapseWs_of_cleaned (x : List Char) :
    collapseWs (stripChars (collapseWs x)) = stripChars (collapseWs x) := by
  rw [collapseWs]
  refine (collapseAux_fix _).1 ?_ ?_
  · intro c hc hwc
    exact wsP_collapseAux x false c (mem_stripChars _ c hc) hwc
  · exact noRun_dropTrailWs _ (noRun_dropWs _ (noRun_collapseAux x false))

/-! ## Membership lemmas for the Page-token removal -/

theorem mem_dropDigits (l : List Char) (c : Char) (h : c ∈ dropDigits l) : c ∈ l := by
  induction l with
  | nil => simp [dropDigits] at h
  | cons d cs ih =>
      by_cases hd : isDigit d
      · rw [dropDigits, if_pos hd] at h
        exact List.mem_cons_of_mem d (ih h)
      · rwa [dropDigits, if_neg hd] at h

theorem mem_removePageFuel :
    ∀ (fuel : Nat) (l : List Char) (c : Char), c ∈ removePageFuel fuel l → c ∈ l := by
  intro fuel
  induction fuel with
  | zero => intro l c h; simpa [removePageFuel] using h
  | succ fuel ih =>
      intro l c h
      rcases l with _ | ⟨p1, _ | ⟨p2, _ | ⟨p3, _ | ⟨p4, _ | ⟨w0, _ | ⟨d0, rest⟩⟩⟩⟩⟩⟩
      · simp [removePageFuel] at h
      · simp only [removePageFuel] at h
        rcases List.mem_cons.mp h with rfl | h
        · exact List.mem_cons_self _ _
        · exact List.mem_cons_of_mem _ (ih _ c h)
      · simp only [removePageFuel] at h
        rcases List.mem_cons.mp h with rfl | h
        · exact List.mem_cons_self _ _
        · exact List.mem_cons_of_mem _ (ih _ c h)
      · simp only [removePageFuel] at h
        rcases List.mem_cons.mp h with rfl | h
        · exact List.mem_cons_self _ _
        · exact List.mem_cons_of_mem _ (ih _ c h)
      · simp only [removePageFuel] at h
        rcases List.mem_cons.mp h with rfl | h
        · exact List.mem_cons_self _ _
        · exact List.mem_cons_of_mem _ (ih _ c h)
      · simp only [removePageFuel] at h
        rcases List.mem_cons.mp h with rfl | h
        · exact List.mem_cons_self _ _
        · exact List.mem_cons_of_mem _ (ih _ c h)
      · by_cases htok : isPageTok p1 p2 p3 p4 w0 d0
        · rw [show removePageFuel (fuel + 1) (p1 :: p2 :: p3 :: p4 :: w0 :: d0 :: rest)
                = removePageFuel fuel (dropDigits rest) by
            simp [removePageFuel, htok]] at h
          have : c ∈ rest := mem_dropDigits rest c (ih _ c h)
          simp [this]
        · rw [show removePageFuel (fuel + 1) (p1 :: p2 :: p3 :: p4 :: w0 :: d0 :: rest)
                = p1 :: removePageFuel fuel (p2 :: p3 :: p4 :: w0 :: d0 :: rest) by
            simp [removePageFuel, htok]] at h
          rcases List.mem_cons.mp h with rfl | h
          · exact List.mem_cons_self _ _
          · exact List.mem_cons_of_mem _ (ih _ c h)

theorem mem_removePage (l : List Char) (c : Char) (h : c ∈ removePage l) : c ∈ l :=
  mem_removePageFuel l.length l c h

theorem mem_clean_text_ws (t : List Char) (c : Char) (hc : c ∈ clean_text t)
    (hw : isWs c = true) : c = ' ' := by
  rw [clean_text] at hc
  exact wsP_collapseAux t false c
    (mem_stripChars _ c (mem_removePage _ c hc)) hw

/-! ## Claim theorems -/

/-- Claim C3, counterexample: clean_text is not idempotent.  On the
input "Page 1 a" the first application leaves the leading space that
the removed Page token exposed (the strip runs before the token
removal), and a second application removes it. -/
theorem C3_counterexample :
    clean_text (clean_text ("Page 1 a".toList)) ≠ clean_text ("Page 1 a".toList) := by
  decide

/-- Claim C3, amended: clean_text is idempotent on every input on which
the Page-token removal pass removes nothing from the collapsed and
trimmed form of the input (in particular on all inputs without
case-insensitive Page-number tokens after whitespace collapsing).  In
general, idempotence fails exactly because token removal can expose
untrimmed or doubled spaces, as the counterexample shows. -/
theorem C3_clean_idempotent_no_page (x : List Char)
    (h : removePage (stripChars (collapseWs x)) = stripChars (collapseWs x)) :
    clean_text (clean_text x) = clean_text x := by
  have hx : clean_text x = stripChars (collapseWs x) := by rw [clean_text, h]
  rw [hx, clean_text, collapseWs_of_cleaned, stripChars_of_stripped, h]

/-- Witness for C3_clean_idempotent_no_page at a concrete input. -/
theorem C3_clean_idempotent_no_page_witness :
    removePage (stripChars (collapseWs ("hello  world".toList)))
        = stripChars (collapseWs ("hello  world".toList)) ∧
      clean_text (clean_text ("hello  world".toList)) = clean_text ("hello  world".toList) :=
  ⟨by decide, C3_clean_idempotent_no_page _ (by decide)⟩

/-- Claim C4, counterexample: cleaning "Page 1 Hello   world." does not
give "Hello world.": removing the token "Page 1" leaves the space that
separated it from "Hello", and clean_text never trims again after the
token removal. -/
theorem C4_counterexample :
    clean_text ("Page 1 Hello   world.".toList) ≠ "Hello world.".toList := by
  decide

/-- Claim C4, amended: clean_text collapses whitespace runs to single
spaces and trims the ends, and only then removes case-insensitive
Page-number tokens, so the example input cleans to " Hello world."
(leading space kept); the output is still single-line in the sense that
every whitespace character remaining in the output of clean_text is a
plain space. -/
theorem C4_clean_example_and_spaces :
    clean_text ("Page 1 Hello   world.".toList) = " Hello world.".toList ∧
      ∀ t : List Char, (clean_text t).all (fun c => !(isWs c) || (c == ' ')) = true := by
  constructor
  · decide
  · intro t
    rw [List.all_eq_true]
    intro c hc
    by_cases hw : isWs c
    · rw [mem_clean_text_ws t c hc hw]
      rfl
    · simp [hw]

/-- Claim C5 (confirmed): every chunk produced by chunk_text has at
most max_words words, except that a chunk may consist of a single
sentence (stripped) whose own word count exceeds the budget, and such
an oversized sentence is alone in its chunk; the chunker never splits
inside a sentence. -/
theorem C5_chunk_word_bound (t : List Char) (m : Nat) (c : List Char)
    (hc : c ∈ chunk_text t m) :
    (words c).length ≤ m ∨
      ∃ s ∈ splitSentences t, c = stripChars s ∧ m < (words s).length := by
  refine chunkAux_bound (splitSentences t) (splitSentences t) m [] 0
    (fun s hs => hs) rfl (fun hm => absurd hm (Nat.not_lt_zero m)) c hc

/-- Witness for C5_chunk_word_bound at a concrete input. -/
theorem C5_chunk_word_bound_witness :
    ("a b".toList ∈ chunk_text ("a b".toList) 400) ∧
      ((words ("a b".toList)).length ≤ 400 ∨
        ∃ s ∈ splitSentences ("a b".toList),
          "a b".toList = stripChars s ∧ 400 < (words s).length) :=
  ⟨by decide, C5_chunk_word_bound ("a b".toList) 400 ("a b".toList) (by decide)⟩

/-- Claim C6 (confirmed): chunking preserves content and order.
Joining the chunks with single spaces yields exactly the same word
sequence (hence the same total word count, in document order) as the
input text. -/
theorem C6_chunks_preserve_words (t : List Char) (m : Nat) :
    words (joinSpace (chunk_text t m)) = words t := by
  rw [chunk_text, chunkAux_words_flat, splitSentences_words_flat]
  rfl

/-- Claim C7 (confirmed): for a fixed input, shrinking the word budget
can only increase (never decrease) the number of chunks returned by
chunk_text. -/
theorem C7_chunk_count_antitone (t : List Char) (m1 m2 : Nat) (h : m2 ≤ m1) :
    (chunk_text t m1).length ≤ (chunk_text t m2).length := by
  rw [chunk_text, chunk_text]
  exact (chunkAux_len_mono_aux (splitSentences t)).1 m1 m2 [] [] 0 0 h
    (Nat.le_refl 0) (fun hh => hh)

/-- Witness for C7_chunk_count_antitone at a concrete input. -/
theorem C7_chunk_count_antitone_witness :
    1 ≤ 2 ∧ (chunk_text ("a. b.".toList) 2).length ≤ (chunk_text ("a. b.".toList) 1).length :=
  ⟨by decide, C7_chunk_count_antitone ("a. b.".toList) 2 1 (by decide)⟩

/-- Claim C10 (confirmed): chunk_text never returns an empty list, and
on the empty string it returns the one-element list containing the
empty string, for every budget. -/
theorem C10_chunks_nonempty :
    (∀ (t : List Char) (m : Nat), chunk_text t m ≠ []) ∧
      (∀ m : Nat, chunk_text [] m = [[]]) := by
  refine ⟨chunk_text_ne_nil, ?_⟩
  intro m
  rw [chunk_text]
  rw [show splitSentences [] = [[]] from rfl]
  simp only [chunkAux]
  rw [if_neg (by simp)]
  rw [if_neg (by simp)]
  rfl

/-- Claim C2, counterexample: a chunk of exactly 40 words is NOT
summarized by the interactive front-end (app.py uses a strict
greater-than-40 test), contradicting the claim that both front-ends
summarize a 40-word chunk. -/
theorem C2_counterexample :
    app_keep (("a a a a a a a a a a a a a a a a a a a a a a a a a a a a a a a a a a a a a a a a").toList) = false ∧
      (words (("a a a a a a a a a a a a a a a a a a a a a a a a a a a a a a a a a a a a a a a a").toList)).length = 40 := by
  constructor
  · decide
  · decide

/-- Claim C2, amended: the CLI front-end skips exactly the chunks with
fewer than 40 words (a 40-word chunk is summarized, a 39-word chunk is
skipped), but the interactive front-end skips every chunk with at most
40 words (a 40-word chunk is skipped there): the two front-ends
disagree exactly on 40-word chunks. -/
theorem C2_skip_thresholds (c : List Char) :
    (cli_keep c = true ↔ 40 ≤ (words c).length)
      ∧ (app_keep c = true ↔ 40 < (words c).length) := by
  constructor
  · rw [cli_keep]
    constructor
    · intro h
      have := (Bool.and_eq_true _ _).mp h
      exact of_decide_eq_true this.2
    · intro h
      have hne : c.isEmpty = false := by
        rw [List.isEmpty_eq_false]
        intro hnil
        rw [hnil] at h
        simp [words, wordsAux] at h
      simp [hne, h]
  · rw [app_keep]
    exact decide_eq_true_iff

/-- Claim C9, counterexample: on an input whose cleaned text has only
10 words (fewer than 40), the CLI front-end does not halt: it still
reaches the output-writing step and writes the output files, here with
an empty final summary, contradicting the claim that both front-ends
halt with no output files written. -/
theorem C9_counterexample :
    (words (clean_text ("a a a a a a a a a a".toList))).length < 40 ∧
      cli_run (fun s => s) ("a a a a a a a a a a".toList) = some [] := by
  constructor
  · decide
  · decide

/-- Claim C9, amended: on inputs whose cleaned text has fewer than 40
words, the interactive front-end halts with a warning and writes no
output files, but the CLI front-end halts only when the raw extracted
text is empty: for nonempty raw text it always proceeds to write the
output files (with an empty summary when every chunk is skipped). -/
theorem C9_insufficient_text (f : List Char → List Char) (raw : List Char)
    (h : (words (clean_text raw)).length < 40) :
    app_run f raw = none ∧
      (raw.isEmpty = false → ∃ s, cli_run f raw = some s) := by
  constructor
  · rw [app_run, if_pos (Or.inr h)]
  · intro hraw
    refine ⟨joinNN (summarize_chunks_cli f (chunk_text (clean_text raw) 400)), ?_⟩
    rw [cli_run, if_neg (by simp [hraw])]

/-- Witness for C9_insufficient_text at a concrete input. -/
theorem C9_insufficient_text_witness :
    (words (clean_text ("a a a a a a a a a a".toList))).length < 40 ∧
      (app_run (fun s => s) ("a a a a a a a a a a".toList) = none ∧
        (("a a a a a a a a a a".toList).isEmpty = false →
          ∃ s, cli_run (fun s => s) ("a a a a a a a a a a".toList) = some s)) :=
  ⟨by decide, C9_insufficient_text (fun s => s) ("a a a a a a a a a a".toList) (by decide)⟩

/-- Claim C1, counterexample: the two front-ends do not produce the same
final summary on every input.  With the summarization model fixed to
the identity function, an input consisting of a single 40-word sentence
is summarized by the CLI (40-word chunks are kept there) but skipped by
the interactive front-end, so the final summaries differ. -/
theorem C1_counterexample :
    app_run (fun s => s)
        (("a a a a a a a a a a a a a a a a a a a a a a a a a a a a a a a a a a a a a a a a").toList)
      ≠ cli_run (fun s => s)
        (("a a a a a a a a a a a a a a a a a a a a a a a a a a a a a a a a a a a a a a a a").toList) := by
  decide

/-- Claim C1, amended: the two front-ends run the same
extract/clean/chunk/summarize/concatenate pipeline and agree whenever
the cleaned text has at least 40 words and no chunk has exactly 40
words; the remaining divergences are exactly the 40-word boundary of
the skip test and the insufficient-text guard that only the interactive
front-end applies. -/
theorem C1_frontends_agree (f : List Char → List Char) (raw : List Char)
    (h40 : 40 ≤ (words (clean_text raw)).length)
    (hch : ∀ c ∈ chunk_text (clean_text raw) 400, (words c).length ≠ 40) :
    app_run f raw = cli_run f raw := by
  have hclean_ne : (clean_text raw).isEmpty = false := by
    rw [List.isEmpty_eq_false]
    intro hnil
    rw [hnil] at h40
    simp [words, wordsAux] at h40
  have hraw_ne : ¬raw.isEmpty = true := by
    intro hnil
    rw [List.isEmpty_iff.mp hnil] at h40
    simp [clean_text, collapseWs, collapseAux, stripChars, dropTrailWs, dropWs,
      removePage, removePageFuel, words, wordsAux] at h40
  have hguard : ¬((clean_text raw).isEmpty = true ∨ (words (clean_text raw)).length < 40) := by
    intro hor
    rcases hor with h | h
    · rw [hclean_ne] at h; exact Bool.false_ne_true h
    · exact absurd h40 (Nat.not_le.mpr h)
  rw [app_run, cli_run, if_neg hguard, if_neg hraw_ne]
  have hfil : (chunk_text (clean_text raw) 400).filter app_keep
      = (chunk_text (clean_text raw) 400).filter cli_keep := by
    apply List.filter_congr
    intro c hc
    have hne40 := hch c hc
    by_cases hlt : 40 < (words c).length
    · have hcne : c.isEmpty = false := by
        rw [List.isEmpty_eq_false]
        intro hnil
        rw [hnil] at hlt
        simp [words, wordsAux] at hlt
      simp [app_keep, cli_keep, hlt, hcne, Nat.le_of_lt hlt]
    · have hlt40 : ¬(40 ≤ (words c).length) := by omega
      simp [app_keep, cli_keep, hlt, hlt40]
  rw [summarize_chunks_app, summarize_chunks_cli, hfil]

/-- Witness for C1_frontends_agree at a concrete input (a single
41-word sentence). -/
theorem C1_frontends_agree_witness :
    40 ≤ (words (clean_text ("a a a a a a a a a a a a a a a a a a a a a a a a a a a a a a a a a a a a a a a a a".toList))).length ∧
      app_run (fun s => s) ("a a a a a a a a a a a a a a a a a a a a a a a a a a a a a a a a a a a a a a a a a".toList)
        = cli_run (fun s => s) ("a a a a a a a a a a a a a a a a a a a a a a a a a a a a a a a a a a a a a a a a a".toList) :=
  ⟨by decide, C1_frontends_agree (fun s => s) _ (by decide) (by decide)⟩

/-- Claim C8, counterexample: the BERTScore step does not pair each
summary with the chunk it was generated from.  With two chunks, a
short skipped one followed by a long summarized one, the single
summary (generated from the second chunk, model fixed to identity) is
paired with the first chunk. -/
theorem C8_counterexample :
    eval_pairs [("b".toList), ("a a a a a a a a a a a a a a a a a a a a a a a a a a a a a a a a a a a a a a a a a".toList)]
        (summarize_chunks_cli (fun s => s)
          [("b".toList), ("a a a a a a a a a a a a a a a a a a a a a a a a a a a a a a a a a a a a a a a a a".toList)])
      = [(("a a a a a a a a a a a a a a a a a a a a a a a a a a a a a a a a a a a a a a a a a".toList), ("b".toList))] ∧
      ("b".toList : List Char) ≠ ("a a a a a a a a a a a a a a a a a a a a a a a a a a a a a a a a a a a a a a a a a".toList) := by
  constructor
  · decide
  · decide

/-- Claim C8, amended: the scoring step pairs the summaries positionally
with the truncated prefix chunks[:len(summaries)] of the full chunk
list, which coincides with pairing each summary with its source chunk
exactly when no skipped chunk precedes a summarized one (for instance
when every chunk is kept); the reported precision/recall/F1 are the
arithmetic means of the per-pair scores. -/
theorem C8_pairing_and_means (sc : List Char → List Char → ℚ × ℚ × ℚ)
    (f : List Char → List Char) (chunks : List (List Char))
    (hkeep : ∀ c ∈ chunks, cli_keep c = true) :
    eval_pairs chunks (summarize_chunks_cli f chunks)
        = chunks.map (fun c => (f c, c)) ∧
      reportedScores sc chunks (summarize_chunks_cli f chunks)
        = ((chunks.map fun c => (sc (f c) c).1).sum / (chunks.length : ℚ),
           (((chunks.map fun c => (sc (f c) c).2.1).sum / (chunks.length : ℚ)),
            ((chunks.map fun c => (sc (f c) c).2.2).sum / (chunks.length : ℚ)))) := by
  have hfil : chunks.filter cli_keep = chunks := List.filter_eq_self.mpr hkeep
  have hsumm : summarize_chunks_cli f chunks = chunks.map f := by
    rw [summarize_chunks_cli, hfil]
  have hzip := List.zip_map' f id chunks
  rw [List.map_id] at hzip
  simp only [id_eq] at hzip
  have hpairs : eval_pairs chunks (summarize_chunks_cli f chunks)
      = chunks.map (fun c => (f c, c)) := by
    rw [hsumm, eval_pairs, valid_chunks, List.length_map, List.take_length, hzip]
  refine ⟨hpairs, ?_⟩
  rw [reportedScores, hpairs]
  simp only [List.map_map, List.length_map]
  rfl

/-- Witness for C8_pairing_and_means at a concrete input: a single kept
41-word chunk, identity model. -/
theorem C8_pairing_and_means_witness :
    eval_pairs [("a a a a a a a a a a a a a a a a a a a a a a a a a a a a a a a a a a a a a a a a a".toList)]
        (summarize_chunks_cli (fun s => s)
          [("a a a a a a a a a a a a a a a a a a a a a a a a a a a a a a a a a a a a a a a a a".toList)])
      = [("a a a a a a a a a a a a a a a a a a a a a a a a a a a a a a a a a a a a a a a a a".toList)].map
          (fun c => ((fun (s : List Char) => s) c, c)) :=
  (C8_pairing_and_means (fun _ _ => ((1 : ℚ), ((2 : ℚ), (3 : ℚ)))) (fun s => s)
    [("a a a a a a a a a a a a a a a a a a a a a a a a a a a a a a a a a a a a a a a a a".toList)]
    (by decide)).1
